import Mathlib

/-!
Shallow embedding of the regex facade in `src/src/regex.rs`.

The underlying matching primitive (a compiled pattern database scanned with a
per-call scratch workspace and a terminate-on-first-match callback) is modelled
as an abstract `Engine`: `scan buf` returns the engine's result status
(completed / terminated-by-callback / error) together with the final contents
of the callback-recorded slot `(slotFrom, slotTo)`; a slot that was never
written stays at its initial `(0, 0)`.  `allocOk` models whether the per-call
scratch allocation (`self.db.alloc()`) succeeds.

Text is modelled as `List Char`; Rust slices `&text[a..]` and `&text[a..b]`
become `List.drop` and `sliceL`.
-/

namespace HsRegex

/-- Result status of one engine scan call, mirroring
`Ok(_) | Err(ScanTerminated) | Err(other)` in `regex.rs`. -/
inductive EngineResult where
  | completed : EngineResult
  | terminated : EngineResult
  | error : EngineResult
deriving DecidableEq, Repr

/-- Outcome of one scan call: the result status plus the final contents of the
callback-recorded `(from, to)` slot (initially `(0, 0)`, overwritten by
`Match::short_matched` whenever the callback fires). -/
structure ScanOutcome where
  result : EngineResult
  slotFrom : Nat
  slotTo : Nat
deriving DecidableEq, Repr

/-- The abstract matching engine behind `db.scan` together with the scratch
allocator behind `db.alloc()`. -/
structure Engine where
  allocOk : Bool
  scan : List Char → ScanOutcome

/-- `Match` from `regex.rs`: a text reference plus `[start, end)` offsets. -/
structure Match where
  text : List Char
  start : Nat
  endPos : Nat
deriving DecidableEq, Repr

/-- `Match::new`: offsets both zero. -/
def Match.new (text : List Char) : Match :=
  { text := text, start := 0, endPos := 0 }

/-- `Match::is_matched`: `self.end > self.start`. -/
def Match.isMatched (m : Match) : Bool :=
  m.start < m.endPos

/-- Rust `&text[a..b]` on our list model. -/
def sliceL (text : List Char) (a b : Nat) : List Char :=
  (text.take b).drop a

/-- `Regex::find_at`: allocate scratch, scan the suffix `&text[start..]`, and
on a completed or callback-terminated scan return the recorded slot as a
`Match` against the *sliced* text when `is_matched`, else `None`.  Any other
engine error, or scratch-allocation failure, yields `None`. -/
def findAt (e : Engine) (text : List Char) (start : Nat) : Option Match :=
  if e.allocOk then
    let sliced := text.drop start
    let o := e.scan sliced
    match o.result with
    | EngineResult.error => none
    | _ =>
      let m : Match := { text := sliced, start := o.slotFrom, endPos := o.slotTo }
      if m.isMatched then some m else none
  else
    none

/-- `Regex::find`. -/
def find (e : Engine) (text : List Char) : Option Match :=
  findAt e text 0

/-- `Regex::is_match` (via `is_match_at(text, 0)`). -/
def isMatch (e : Engine) (text : List Char) : Bool :=
  (findAt e text 0).isSome

/-- One step of `Matches::next`.  The iterator state is the stored
`Option<Match>` cell `self.m`; the step returns the yielded item together with
the new state.  The stored match is taken (left `none`) and only restored when
a fresh match is found; on success the slot offsets are shifted by the resume
offset and the match references the *original* text. -/
def matchesNext (e : Engine) (text : List Char) (s : Option Match) :
    Option Match × Option Match :=
  match s with
  | none => (none, none)
  | some prev =>
    let offset := prev.endPos
    if e.allocOk then
      let o := e.scan (text.drop offset)
      match o.result with
      | EngineResult.error => (none, none)
      | _ =>
        let m0 : Match := { text := text, start := o.slotFrom, endPos := o.slotTo }
        if m0.isMatched then
          let m : Match := { text := text, start := m0.start + offset, endPos := m0.endPos + offset }
          (some m, some m)
        else
          (none, none)
    else
      (none, none)

/-- `Matches::new`: the stored cell starts as `Some(Match::new(text))`. -/
def initState (text : List Char) : Option Match :=
  some (Match.new text)

/-- The list of matches yielded by repeatedly calling `matchesNext`, with
explicit fuel (each yielded match strictly advances the offset, so
`text.length + 1` steps suffice for a within-bounds engine). -/
def matchesFrom (e : Engine) (text : List Char) : Nat → Option Match → List Match
  | 0, _ => []
  | fuel + 1, s =>
    match matchesNext e text s with
    | (some m, s') => m :: matchesFrom e text fuel s'
    | (none, _) => []

/-- All matches yielded by `find_iter(text)`. -/
def matchesList (e : Engine) (text : List Char) : List Match :=
  matchesFrom e text (text.length + 1) (initState text)

/-- `Cow<'t, str>` restricted to the two constructors used by `replacen`. -/
inductive Cow where
  | borrowed : List Char → Cow
  | owned : List Char → Cow
deriving DecidableEq, Repr

/-- The string content of a `Cow` (what Rust `==` compares). -/
def cowVal : Cow → List Char
  | Cow.borrowed s => s
  | Cow.owned s => s

/-- The loop body of `Regex::replacen`, walking the match list while tracking
`(matched, last_match, new)`.  Substitution happens only when
`m.start() > last_match`; the limit check breaks out of the loop before the
substitution; `last_match = m.end()` runs on every non-broken iteration. -/
def replacenLoop (text rep : List Char) (limit : Nat) :
    List Match → Nat → Nat → List Char → Nat × Nat × List Char
  | [], matched, last, acc => (matched, last, acc)
  | m :: ms, matched, last, acc =>
    if last < m.start then
      if 0 < limit ∧ limit ≤ matched then
        (matched, last, acc)
      else
        replacenLoop text rep limit ms (matched + 1) m.endPos
          (acc ++ sliceL text last m.start ++ rep)
    else
      replacenLoop text rep limit ms matched m.endPos acc

/-- `Regex::replacen`: run the loop over `find_iter(text)`; if `last_match`
is still `0` afterwards return the borrowed original, else append the tail
`&text[last_match..]` and return the owned buffer. -/
def replacen (e : Engine) (text : List Char) (limit : Nat) (rep : List Char) : Cow :=
  let r := replacenLoop text rep limit (matchesList e text) 0 0 []
  if r.2.1 = 0 then Cow.borrowed text else Cow.owned (r.2.2 ++ text.drop r.2.1)

/-- `Regex::replace_all` = `replacen(text, 0, rep)`. -/
def replaceAll (e : Engine) (text : List Char) (rep : List Char) : Cow :=
  replacen e text 0 rep

/-- `Regex::replace` = `replacen(text, 1, rep)`. -/
def replace (e : Engine) (text : List Char) (rep : List Char) : Cow :=
  replacen e text 1 rep

/-- String content of `replace_all`'s result. -/
def replaceAllStr (e : Engine) (text : List Char) (rep : List Char) : List Char :=
  cowVal (replaceAll e text rep)

/-- The sequence of pieces yielded by the `Split` iterator: track
`last`, merge a match whose start equals `last` (yield nothing, continue),
otherwise yield the gap `&text[last..m.start()]`; at iterator exhaustion yield
the tail `&text[last..]` only when `last < text.len()`.  Fuel bounds the number
of `finder.next()` calls. -/
def splitGo (e : Engine) (text : List Char) : Nat → Option Match → Nat → List (List Char)
  | 0, _, _ => []
  | fuel + 1, s, last =>
    match matchesNext e text s with
    | (none, _) =>
      if text.length ≤ last then [] else [text.drop last]
    | (some m, s') =>
      if last = m.start then
        splitGo e text fuel s' m.endPos
      else
        sliceL text last m.start :: splitGo e text fuel s' m.endPos

/-- All pieces yielded by `split(text)`. -/
def splitPieces (e : Engine) (text : List Char) : List (List Char) :=
  splitGo e text (text.length + 2) (initState text) 0

/-- State of the `SplitN` iterator: the inner `Split` state (finder state and
`last`) plus the remaining budget `n`. -/
structure SplitNState where
  s : Option Match
  last : Nat
  n : Nat

/-- One call of `Split::next` returning `(yielded piece, finder state, last)`;
the inner `loop` over merged contiguous matches is unrolled with fuel. -/
def splitStepGo (e : Engine) (text : List Char) :
    Nat → Option Match → Nat → Option (List Char) × Option Match × Nat
  | 0, s, last => (none, s, last)
  | fuel + 1, s, last =>
    match matchesNext e text s with
    | (none, s') =>
      if text.length ≤ last then (none, s', last)
      else (some (text.drop last), s', text.length)
    | (some m, s') =>
      if last = m.start then
        splitStepGo e text fuel s' m.endPos
      else
        (some (sliceL text last m.start), s', m.endPos)

/-- `Split::next` as a single step. -/
def splitStep (e : Engine) (text : List Char) (s : Option Match) (last : Nat) :
    Option (List Char) × Option Match × Nat :=
  splitStepGo e text (text.length + 2) s last

/-- One call of `SplitN::next`: with `n == 0` yield nothing; after
decrementing, when the budget hits its last slot yield the whole remaining
tail `&text[splits.last..]` without searching further; otherwise defer to
`Split::next`. -/
def splitnNext (e : Engine) (text : List Char) (st : SplitNState) :
    Option (List Char) × SplitNState :=
  if st.n = 0 then
    (none, st)
  else
    let n' := st.n - 1
    if n' = 0 then
      (some (text.drop st.last), { s := st.s, last := st.last, n := n' })
    else
      match splitStep e text st.s st.last with
      | (r, s', last') => (r, { s := s', last := last', n := n' })

/-- Collect the pieces yielded by repeated `SplitN::next` calls (the budget
strictly decreases while pieces are yielded, so `limit + 1` calls suffice). -/
def splitnGo (e : Engine) (text : List Char) : Nat → SplitNState → List (List Char)
  | 0, _ => []
  | fuel + 1, st =>
    match splitnNext e text st with
    | (none, _) => []
    | (some p, st') => p :: splitnGo e text fuel st'

/-- All pieces yielded by `splitn(text, limit)`. -/
def splitnPieces (e : Engine) (text : List Char) (limit : Nat) : List (List Char) :=
  splitnGo e text (limit + 1) { s := initState text, last := 0, n := limit }

/-- `Regex::new` with the external pattern compiler (`re.parse()?` then
`pattern.build()?`) abstracted as `compile`; the `?` operator surfaces any
compile error to the caller. -/
def regexNew {E D : Type} (compile : String → Except E D) (re : String) :
    Except E (String × D) :=
  match compile re with
  | Except.error err => Except.error err
  | Except.ok d => Except.ok (re, d)

/-- The result of a single completed scan attempt on a buffer, abstracting the
shared success path of `find_at` and `Matches::next`: `some (from, to)` exactly
when scratch allocation succeeded, the engine did not error, and the recorded
slot satisfies `to > from`. -/
def scanOnce (e : Engine) (buf : List Char) : Option (Nat × Nat) :=
  if e.allocOk then
    let o := e.scan buf
    match o.result with
    | EngineResult.error => none
    | _ => if o.slotFrom < o.slotTo then some (o.slotFrom, o.slotTo) else none
  else
    none

/-- An engine is within-bounds when every recorded slot end offset stays
inside the scanned buffer (hyperscan reports offsets into the buffer it was
given). -/
def EngineWF (e : Engine) : Prop :=
  ∀ buf : List Char, (e.scan buf).slotTo ≤ buf.length

/-- Leftmost occurrence of a literal pattern in a buffer: a concrete,
executable engine used for witnesses and counterexamples. -/
def litFind (pat : List Char) : List Char → Option Nat
  | [] => none
  | c :: rest =>
    if (c :: rest).take pat.length = pat then some 0
    else (litFind pat rest).map (· + 1)

/-- Scan outcome of the literal engine: terminated-by-callback with the match
slot on a hit, completed with the untouched `(0, 0)` slot otherwise. -/
def litScan (pat buf : List Char) : ScanOutcome :=
  match litFind pat buf with
  | some i => { result := EngineResult.terminated, slotFrom := i, slotTo := i + pat.length }
  | none => { result := EngineResult.completed, slotFrom := 0, slotTo := 0 }

/-- A concrete engine searching for a literal pattern, scratch always ok. -/
def litEngine (pat : List Char) : Engine :=
  { allocOk := true, scan := litScan pat }

/-- A concrete engine whose scans always fail with a non-terminated error
(the slot deliberately looks like a match, to show it is ignored). -/
def errEngine : Engine :=
  { allocOk := true, scan := fun _ => { result := EngineResult.error, slotFrom := 2, slotTo := 7 } }

/-- A concrete engine whose scratch allocation fails. -/
def noAllocEngine : Engine :=
  { allocOk := false, scan := litScan ['a'] }

/-- The `Matches` iterator state after `k` further `next()` calls. -/
def iterState (e : Engine) (text : List Char) : Nat → Option Match → Option Match
  | 0, s => s
  | k + 1, s => iterState e text k (matchesNext e text s).2

/-! ## Lemmas about single iterator steps -/

/-- A `Matches::next` step either fails leaving the stored cell empty, or
yields a match and stores that same match. -/
theorem matchesNext_cases (e : Engine) (text : List Char) (s : Option Match) :
    matchesNext e text s = (none, none) ∨
      ∃ m, matchesNext e text s = (some m, some m) := by
  cases s with
  | none => exact Or.inl rfl
  | some prev =>
    simp only [matchesNext]
    split
    · split
      · exact Or.inl rfl
      · split
        · exact Or.inr ⟨_, rfl⟩
        · exact Or.inl rfl
    · exact Or.inl rfl

/-- When a `Matches::next` step yields nothing, the stored cell stays empty
(the take-then-restore-only-on-success pattern). -/
theorem matchesNext_none_snd (e : Engine) (text : List Char) (s : Option Match)
    (h : (matchesNext e text s).1 = none) : (matchesNext e text s).2 = none := by
  rcases matchesNext_cases e text s with hc | ⟨m, hc⟩
  · rw [hc]
  · rw [hc] at h
    exact absurd h (by simp)

/-- Anatomy of a successful `Matches::next` step: the new state stores the
yielded match; there was a previous stored match whose end is the resume
offset; the yielded match references the original text, starts no earlier than
the resume offset, satisfies `end > start`, and its end is the recorded slot
end shifted by the resume offset. -/
theorem matchesNext_some_spec (e : Engine) (text : List Char) (s : Option Match)
    (m : Match) (s' : Option Match) (h : matchesNext e text s = (some m, s')) :
    s' = some m ∧ ∃ prev, s = some prev ∧ prev.endPos ≤ m.start ∧
      m.start < m.endPos ∧ m.text = text ∧
      m.endPos = (e.scan (text.drop prev.endPos)).slotTo + prev.endPos := by
  cases s with
  | none => simp [matchesNext] at h
  | some prev =>
    simp only [matchesNext] at h
    split at h
    · split at h
      · simp at h
      · split at h
        · rename_i hlt
          rw [Prod.mk.injEq] at h
          obtain ⟨h1, h2⟩ := h
          injection h1 with h1
          subst h1
          refine ⟨h2.symm, prev, rfl, Nat.le_add_left _ _, ?_, rfl, rfl⟩
          simp only [Match.isMatched, decide_eq_true_eq] at hlt
          exact Nat.add_lt_add_right hlt _
        · simp at h
    · simp at h

/-! ## Invariants of the match iterator -/

/-- Every match yielded by the iterator satisfies `end > start` and references
the original text. -/
theorem matchesFrom_mem (e : Engine) (text : List Char) :
    ∀ fuel s, ∀ m ∈ matchesFrom e text fuel s, m.start < m.endPos ∧ m.text = text := by
  intro fuel
  induction fuel with
  | zero => intro s m hm; simp [matchesFrom] at hm
  | succ n ih =>
    intro s m hm
    rw [matchesFrom] at hm
    split at hm
    · rename_i m2 s2 hstep
      rcases List.mem_cons.mp hm with h | h
      · obtain ⟨-, prev, -, -, hlt, htext, -⟩ := matchesNext_some_spec e text s m2 s2 hstep
        subst h
        exact ⟨hlt, htext⟩
      · exact ih s2 m h
    · simp at hm

/-- The first match yielded from a state storing `prev` starts at or after
`prev`'s end (the scan resumes at the previous match's end). -/
theorem matchesFrom_head (e : Engine) (text : List Char) :
    ∀ fuel prev m rest, matchesFrom e text fuel (some prev) = m :: rest →
      prev.endPos ≤ m.start := by
  intro fuel prev m rest h
  cases fuel with
  | zero => simp [matchesFrom] at h
  | succ n =>
    rw [matchesFrom] at h
    split at h
    · rename_i m2 s2 hstep
      simp only [List.cons.injEq] at h
      obtain ⟨h1, -⟩ := h
      subst h1
      obtain ⟨-, prev2, hs, hle, -, -, -⟩ := matchesNext_some_spec e text (some prev) _ s2 hstep
      injection hs with hs
      subst hs
      exact hle
    · simp at h

/-- Successive matches are non-overlapping: each match's end bounds the next
match's start. -/
theorem matchesFrom_chain (e : Engine) (text : List Char) :
    ∀ fuel s, List.Chain' (fun a b => a.endPos ≤ b.start) (matchesFrom e text fuel s) := by
  intro fuel
  induction fuel with
  | zero => intro s; simp [matchesFrom]
  | succ n ih =>
    intro s
    rw [matchesFrom]
    split
    · rename_i m2 s2 hstep
      rw [List.chain'_cons']
      refine ⟨?_, ih s2⟩
      intro b hb
      have hs2 : s2 = some m2 := (matchesNext_some_spec e text s m2 s2 hstep).1
      subst hs2
      cases hh : matchesFrom e text n (some m2) with
      | nil => rw [hh] at hb; simp at hb
      | cons c cs =>
        rw [hh] at hb
        simp only [List.head?_cons, Option.mem_def, Option.some.injEq] at hb
        subst hb
        exact matchesFrom_head e text n m2 _ cs hh
    · simp

/-- For a within-bounds engine, a yielded match ends within the text whenever
the resume offset was within the text. -/
theorem matchesNext_some_wf (e : Engine) (text : List Char) (hwf : EngineWF e)
    (prev m : Match) (s2 : Option Match)
    (h : matchesNext e text (some prev) = (some m, s2))
    (hle : prev.endPos ≤ text.length) : m.endPos ≤ text.length := by
  obtain ⟨-, prev2, hs, -, -, -, hend⟩ := matchesNext_some_spec e text (some prev) m s2 h
  injection hs with hs
  subst hs
  have hb := hwf (text.drop prev.endPos)
  rw [List.length_drop] at hb
  omega

/-- The iterator state from an exhausted cell stays exhausted. -/
theorem iterState_none (e : Engine) (text : List Char) :
    ∀ k, iterState e text k none = none := by
  intro k
  induction k with
  | zero => rfl
  | succ n ih =>
    rw [iterState]
    exact ih

/-- C5: matches yielded by `find_iter(t)` are strictly left-to-right and
non-overlapping: every yielded match satisfies `end > start`, and each
subsequent match starts at or after the previous match's end (the scan resumes
at the previous match's end). -/
theorem find_iter_ordered (e : Engine) (text : List Char) :
    (∀ m ∈ matchesList e text, m.start < m.endPos) ∧
      List.Chain' (fun a b => a.endPos ≤ b.start) (matchesList e text) :=
  ⟨fun m hm => (matchesFrom_mem e text _ _ m hm).1, matchesFrom_chain e text _ _⟩

/-- C6: once `next()` on `find_iter(t)` has returned `None`, every later call
returns `None` as well — the stored cell is emptied and never refilled, so the
iterator never restarts. -/
theorem find_iter_no_restart (e : Engine) (text : List Char) (s : Option Match)
    (h : (matchesNext e text s).1 = none) :
    ∀ k, (matchesNext e text (iterState e text k (matchesNext e text s).2)).1 = none := by
  intro k
  rw [matchesNext_none_snd e text s h, iterState_none]
  rfl

/-- Witness for C6 at a concrete engine, text and exhaustion point. -/
theorem find_iter_no_restart_witness :
    (matchesNext (litEngine ['a']) ['b'] (initState ['b'])).1 = none ∧
      (matchesNext (litEngine ['a']) ['b']
        (iterState (litEngine ['a']) ['b'] 2
          (matchesNext (litEngine ['a']) ['b'] (initState ['b'])).2)).1 = none :=
  ⟨by decide, find_iter_no_restart (litEngine ['a']) ['b'] (initState ['b']) (by decide) 2⟩


/-! ## The replace engine -/

/-- Once `last_match` is positive it stays positive through the loop. -/
theorem replacenLoop_pos (text rep : List Char) (limit : Nat) :
    ∀ ms matched last acc, (∀ m ∈ ms, 0 < m.endPos) → 0 < last →
      0 < (replacenLoop text rep limit ms matched last acc).2.1 := by
  intro ms
  induction ms with
  | nil => intro matched last acc hms hlast; exact hlast
  | cons m ms ih =>
    intro matched last acc hms hlast
    rw [replacenLoop]
    split
    · split
      · exact hlast
      · exact ih _ _ _ (fun x hx => hms x (List.mem_cons_of_mem m hx))
          (hms m (List.mem_cons_self m ms))
    · exact ih _ _ _ (fun x hx => hms x (List.mem_cons_of_mem m hx))
        (hms m (List.mem_cons_self m ms))

/-- When the iterator yields nothing, `replacen` hits the zero-copy fast path
and returns the borrowed original text. -/
theorem replacen_borrowed_of_nil (e : Engine) (text : List Char) (limit : Nat)
    (rep : List Char) (h : matchesList e text = []) :
    replacen e text limit rep = Cow.borrowed text := by
  rw [replacen, h]
  rfl

/-- C1 counterexample: with a match right at offset 0 (pattern `ab` on text
`abc`), no substitution is performed (`matched` stays 0), yet `replacen`
returns an owned buffer with the matched prefix deleted instead of the
borrowed original text. -/
theorem replacen_zero_copy_counterexample :
    (replacenLoop ['a','b','c'] ['Z'] 0
        (matchesList (litEngine ['a','b']) ['a','b','c']) 0 0 []).1 = 0 ∧
      replacen (litEngine ['a','b']) ['a','b','c'] 0 ['Z'] = Cow.owned ['c'] ∧
      replacen (litEngine ['a','b']) ['a','b','c'] 0 ['Z'] ≠
        Cow.borrowed ['a','b','c'] := by
  decide

/-- C1 (amended): the zero-copy fast path triggers exactly when the match
iterator yields no match at all — `replacen` returns the original text as a
borrowed value iff `find_iter` found nothing; whenever any match is yielded
(even when no substitution is performed, e.g. a match starting at the previous
end), an owned buffer is returned. -/
theorem replacen_zero_copy_iff (e : Engine) (text : List Char) (limit : Nat)
    (rep : List Char) :
    replacen e text limit rep = Cow.borrowed text ↔ matchesList e text = [] := by
  constructor
  · intro h
    cases hml : matchesList e text with
    | nil => rfl
    | cons m ms =>
      exfalso
      have hmem : ∀ x ∈ m :: ms, 0 < x.endPos := by
        intro x hx
        have hx2 : x ∈ matchesList e text := by rw [hml]; exact hx
        have := (matchesFrom_mem e text (text.length + 1) (initState text) x hx2).1
        omega
      have hpos : 0 < (replacenLoop text rep limit (m :: ms) 0 0 []).2.1 := by
        rw [replacenLoop]
        split
        · split
          · rename_i hbrk
            exact absurd hbrk (by omega)
          · apply replacenLoop_pos
            · intro x hx
              exact hmem x (List.mem_cons_of_mem m hx)
            · exact hmem m (List.mem_cons_self m ms)
        · apply replacenLoop_pos
          · intro x hx
            exact hmem x (List.mem_cons_of_mem m hx)
          · exact hmem m (List.mem_cons_self m ms)
      simp only [replacen, hml] at h
      rw [if_neg (Nat.pos_iff_ne_zero.mp hpos)] at h
      exact Cow.noConfusion h
  · intro h
    exact replacen_borrowed_of_nil e text limit rep h


/-! ## Bridging single scans, the no-match fast paths, and idempotence -/

/-- A scan attempt that records nothing makes a `Matches::next` step fail and
leave the cell empty. -/
theorem scanOnce_none_step (e : Engine) (text : List Char) (prev : Match)
    (h : scanOnce e (text.drop prev.endPos) = none) :
    matchesNext e text (some prev) = (none, none) := by
  simp only [scanOnce] at h
  simp only [matchesNext]
  by_cases hA : e.allocOk
  · simp only [hA, if_true] at h ⊢
    cases hR : (e.scan (text.drop prev.endPos)).result <;> simp only [hR] at h ⊢
    · split at h
      · simp at h
      · rename_i hlt
        simp [Match.isMatched, hlt]
    · split at h
      · simp at h
      · rename_i hlt
        simp [Match.isMatched, hlt]
  · simp [hA]

/-- If the very first scan of `t` records nothing, `find_iter(t)` yields no
match at all. -/
theorem matchesList_nil_of_scanOnce_none (e : Engine) (text : List Char)
    (h : scanOnce e text = none) : matchesList e text = [] := by
  have hstep : matchesNext e text (initState text) = (none, none) := by
    apply scanOnce_none_step
    simpa using h
  rw [matchesList, matchesFrom, hstep]

/-- `find_at` expressed through `scanOnce`: the returned match references the
*sliced* suffix `&text[start..]` and keeps the recorded offsets unshifted. -/
theorem findAt_eq_scanOnce (e : Engine) (text : List Char) (start : Nat) :
    findAt e text start = (scanOnce e (text.drop start)).map
      (fun p => { text := text.drop start, start := p.1, endPos := p.2 }) := by
  simp only [findAt, scanOnce]
  by_cases hA : e.allocOk
  · simp only [hA, if_true]
    cases hR : (e.scan (text.drop start)).result <;> simp only [hR]
    · simp only [Match.isMatched, decide_eq_true_eq]
      split <;> rfl
    · simp only [Match.isMatched, decide_eq_true_eq]
      split <;> rfl
    · rfl
  · simp [hA]

/-- A `Matches::next` step expressed through `scanOnce`: the yielded match has
both offsets shifted by the resume offset and references the original text. -/
theorem matchesNext_fst_eq_scanOnce (e : Engine) (text : List Char) (prev : Match) :
    (matchesNext e text (some prev)).1 = (scanOnce e (text.drop prev.endPos)).map
      (fun p => { text := text, start := p.1 + prev.endPos, endPos := p.2 + prev.endPos }) := by
  simp only [matchesNext, scanOnce]
  by_cases hA : e.allocOk
  · simp only [hA, if_true]
    cases hR : (e.scan (text.drop prev.endPos)).result <;> simp only [hR]
    · simp only [Match.isMatched, decide_eq_true_eq]
      split <;> rfl
    · simp only [Match.isMatched, decide_eq_true_eq]
      split <;> rfl
    · rfl
  · simp [hA]

/-- C3 counterexample: with start offset 1, `find_at` returns a match whose
offsets are *not* shifted by the start offset and which references the sliced
suffix rather than the original buffer. -/
theorem find_at_offset_counterexample :
    findAt (litEngine ['a','b']) ['x','a','b'] 1 =
        some { text := ['a','b'], start := 0, endPos := 2 } ∧
      findAt (litEngine ['a','b']) ['x','a','b'] 1 ≠
        some { text := ['x','a','b'], start := 1, endPos := 3 } := by
  decide

/-- C3 (amended): after the engine call, if the recorded slot holds
`end > start`, a `Matches::next` step returns the offsets shifted by the
resume offset against the original unsliced buffer, whereas `find_at` returns
the offsets unshifted against the sliced suffix (the matched substring is the
same); otherwise `None` is returned. -/
theorem scan_step_offsets (e : Engine) (text : List Char) :
    (∀ prev : Match, (matchesNext e text (some prev)).1 =
        (scanOnce e (text.drop prev.endPos)).map
          (fun p => { text := text, start := p.1 + prev.endPos, endPos := p.2 + prev.endPos })) ∧
      (∀ start : Nat, findAt e text start =
        (scanOnce e (text.drop start)).map
          (fun p => { text := text.drop start, start := p.1, endPos := p.2 })) :=
  ⟨fun prev => matchesNext_fst_eq_scanOnce e text prev,
   fun start => findAt_eq_scanOnce e text start⟩

/-- C4 counterexample: on empty text (in which the pattern certainly does not
occur), `split` yields no piece at all rather than exactly one piece equal to
the text. -/
theorem no_match_split_counterexample :
    litFind ['a'] [] = none ∧
      splitPieces (litEngine ['a']) ([] : List Char) = [] ∧
      splitPieces (litEngine ['a']) ([] : List Char) ≠ [([] : List Char)] := by
  decide

/-- C4 (amended): if the pattern does not occur in `t` (the scan of `t`
records no match), `replace_all` returns the borrowed original without
allocating, and `split` yields exactly one piece equal to `t` when `t` is
nonempty — but no piece at all when `t` is empty. -/
theorem no_match_fast_path (e : Engine) (text rep : List Char)
    (h : scanOnce e text = none) :
    replaceAll e text rep = Cow.borrowed text ∧
      (text ≠ [] → splitPieces e text = [text]) ∧
      (text = [] → splitPieces e text = []) := by
  have hnil := matchesList_nil_of_scanOnce_none e text h
  have hstep : matchesNext e text (initState text) = (none, none) := by
    apply scanOnce_none_step
    simpa using h
  refine ⟨replacen_borrowed_of_nil e text 0 rep hnil, ?_, ?_⟩
  · intro hne
    have hpos : ¬ (text.length ≤ 0) := by
      have := List.length_pos.mpr hne
      omega
    rw [splitPieces, splitGo, hstep]
    rw [if_neg hpos, List.drop_zero]
  · intro he
    subst he
    rw [splitPieces, splitGo, hstep]
    rfl

/-- Witness for C4 (amended) at a concrete engine and nonempty text. -/
theorem no_match_fast_path_witness :
    scanOnce (litEngine ['z']) ['a','b'] = none ∧
      replaceAll (litEngine ['z']) ['a','b'] ['c'] = Cow.borrowed ['a','b'] ∧
      splitPieces (litEngine ['z']) ['a','b'] = [['a','b']] :=
  ⟨by decide,
   (no_match_fast_path (litEngine ['z']) ['a','b'] ['c'] (by decide)).1,
   (no_match_fast_path (litEngine ['z']) ['a','b'] ['c'] (by decide)).2.1 (by decide)⟩

/-- C2 counterexample: pattern `ab` with replacement `a` (the pattern never
occurs in the replacement) on text `xabby`: the first pass produces `xaby`,
which contains a fresh occurrence of `ab` spanning the boundary between the
replacement and the following gap text, so a second pass changes it again. -/
theorem replace_all_idempotent_counterexample :
    litFind ['a','b'] ['a'] = none ∧
      replaceAllStr (litEngine ['a','b'])
          (replaceAllStr (litEngine ['a','b']) ['x','a','b','b','y'] ['a']) ['a'] ≠
        replaceAllStr (litEngine ['a','b']) ['x','a','b','b','y'] ['a'] := by
  decide

/-- C2 (amended): `replace_all(replace_all(t, r), r) == replace_all(t, r)`
whenever the pattern does not occur in the first-pass result
`replace_all(t, r)` (the replacement never matching the pattern is not enough,
since a new match may span the boundary between replacement and gap text). -/
theorem replace_all_idempotent (e : Engine) (text rep : List Char)
    (h : scanOnce e (replaceAllStr e text rep) = none) :
    replaceAllStr e (replaceAllStr e text rep) rep = replaceAllStr e text rep := by
  have hnil := matchesList_nil_of_scanOnce_none e _ h
  rw [replaceAllStr, replaceAll, replacen_borrowed_of_nil e _ 0 rep hnil]
  rfl

/-- Witness for C2 (amended) at a concrete engine, text and replacement. -/
theorem replace_all_idempotent_witness :
    scanOnce (litEngine ['z']) (replaceAllStr (litEngine ['z']) ['a','b'] ['c']) = none ∧
      replaceAllStr (litEngine ['z'])
          (replaceAllStr (litEngine ['z']) ['a','b'] ['c']) ['c'] =
        replaceAllStr (litEngine ['z']) ['a','b'] ['c'] :=
  ⟨by decide, replace_all_idempotent (litEngine ['z']) ['a','b'] ['c'] (by decide)⟩


/-! ## Split iterators -/

/-- A gap slice between the consumed position and a strictly later match start
inside the text is nonempty. -/
theorem sliceL_ne_nil (text : List Char) (a b : Nat) (hab : a < b)
    (ha : a < text.length) : sliceL text a b ≠ [] := by
  intro hc
  have h1 := congrArg List.length hc
  rw [sliceL, List.length_drop, List.length_take] at h1
  simp only [List.length_nil] at h1
  omega

/-- For a within-bounds engine, the `Split` iterator never yields an empty
piece, given the invariant that the stored match's end equals the consumed
position and stays within the text. -/
theorem splitGo_no_nil (e : Engine) (text : List Char) (hwf : EngineWF e) :
    ∀ fuel s last, last ≤ text.length → (∀ m, s = some m → m.endPos = last) →
      ([] : List Char) ∉ splitGo e text fuel s last := by
  intro fuel
  induction fuel with
  | zero => intro s last h1 h2; simp [splitGo]
  | succ n ih =>
    intro s last h1 h2
    rw [splitGo]
    split
    · split
      · simp
      · rename_i hlen
        intro hc
        rw [List.mem_singleton] at hc
        exact hlen (List.drop_eq_nil_iff.mp hc.symm)
    · rename_i m s2 hstep
      obtain ⟨hs2, prev, hsprev, hge, hlt, -, -⟩ := matchesNext_some_spec e text s m s2 hstep
      have hprevend : prev.endPos = last := h2 prev hsprev
      have hmend : m.endPos ≤ text.length :=
        matchesNext_some_wf e text hwf prev m s2 (hsprev ▸ hstep) (by omega)
      have hinv : ∀ x, s2 = some x → x.endPos = m.endPos := by
        intro x hx
        rw [hs2] at hx
        injection hx with hx
        rw [← hx]
      split
      · exact ih s2 m.endPos hmend hinv
      · rename_i hne
        intro hc
        rcases List.mem_cons.mp hc with hc1 | hc1
        · exact sliceL_ne_nil text last m.start (by omega) (by omega) hc1.symm
        · exact ih s2 m.endPos hmend hinv hc1

/-- The literal engine's recorded slot always ends within the scanned buffer. -/
theorem litFind_le (pat : List Char) :
    ∀ l i, litFind pat l = some i → i + pat.length ≤ l.length := by
  intro l
  induction l with
  | nil => intro i h; simp [litFind] at h
  | cons c rest ih =>
    intro i h
    rw [litFind] at h
    split at h
    · rename_i htake
      injection h with h
      subst h
      have hlen := congrArg List.length htake
      rw [List.length_take] at hlen
      simp only [List.length_cons] at hlen ⊢
      omega
    · rw [Option.map_eq_some'] at h
      obtain ⟨j, hj, hji⟩ := h
      have := ih j hj
      simp only [List.length_cons]
      omega

/-- The literal engine is within-bounds. -/
theorem litEngine_wf (pat : List Char) : EngineWF (litEngine pat) := by
  intro buf
  show (litScan pat buf).slotTo ≤ buf.length
  rw [litScan]
  cases hf : litFind pat buf with
  | none => exact Nat.zero_le _
  | some i => exact litFind_le pat buf i hf

/-- C8: `split(t)` never yields an empty string — contiguous matches are
merged into one skipped region (including a match at offset 0), and the
trailing tail is yielded only when the last consumed end is strictly before
the end of the text. -/
theorem split_no_empty_piece (e : Engine) (text : List Char) (hwf : EngineWF e) :
    ([] : List Char) ∉ splitPieces e text := by
  apply splitGo_no_nil e text hwf
  · exact Nat.zero_le _
  · intro m hm
    injection hm with hm
    rw [← hm]
    rfl

/-- Witness for C8 at the literal engine. -/
theorem split_no_empty_piece_witness :
    ([] : List Char) ∉ splitPieces (litEngine ['b']) ['a','b','a'] :=
  split_no_empty_piece (litEngine ['b']) ['a','b','a'] (litEngine_wf ['b'])

/-- C7: `splitn(t, 0)` yields no pieces and `splitn(t, 1)` yields exactly one
piece equal to `t` (the whole remaining unsplit tail), for every engine and
text — no scan is ever performed in either case. -/
theorem splitn_zero_one (e : Engine) (text : List Char) :
    splitnPieces e text 0 = [] ∧ splitnPieces e text 1 = [text] :=
  ⟨rfl, rfl⟩

/-! ## Error handling -/

/-- An engine error makes the single scan attempt record nothing. -/
theorem scanOnce_error (e : Engine) (buf : List Char)
    (h : (e.scan buf).result = EngineResult.error) : scanOnce e buf = none := by
  simp only [scanOnce]
  split
  · rw [h]
  · rfl

/-- C9: an engine scan error other than successful completion or
terminated-by-callback is absorbed as "no match": `find_at` returns `None` and
the match iterator ends, with no error surfaced to the caller; construction
errors from the pattern compiler are always surfaced by `Regex::new`, and a
successful compile constructs the regex. -/
theorem scan_error_absorbed (e : Engine) (text : List Char) (s : Nat)
    {E D : Type} (compile : String → Except E D) (re : String) :
    ((e.scan (text.drop s)).result = EngineResult.error →
        findAt e text s = none ∧
          ∀ prev : Match, prev.endPos = s → matchesNext e text (some prev) = (none, none)) ∧
      (∀ err : E, compile re = Except.error err → regexNew compile re = Except.error err) ∧
      (∀ d : D, compile re = Except.ok d → regexNew compile re = Except.ok (re, d)) := by
  refine ⟨?_, ?_, ?_⟩
  · intro herr
    constructor
    · rw [findAt_eq_scanOnce, scanOnce_error e _ herr]
      rfl
    · intro prev hprev
      apply scanOnce_none_step
      rw [hprev]
      exact scanOnce_error e _ herr
  · intro err hc
    simp [regexNew, hc]
  · intro d hc
    simp [regexNew, hc]

/-- Witness for C9 at a concrete always-erroring engine (whose recorded slot
even looks like a match, showing it is ignored) and a failing compiler. -/
theorem scan_error_absorbed_witness :
    findAt errEngine ['a','b'] 0 = none ∧
      matchesNext errEngine ['a','b'] (some (Match.new ['a','b'])) = (none, none) ∧
      regexNew (fun _ : String => (Except.error 7 : Except Nat Nat)) "x" = Except.error 7 := by
  have h := scan_error_absorbed errEngine ['a','b'] 0
    (fun _ : String => (Except.error 7 : Except Nat Nat)) "x"
  exact ⟨(h.1 rfl).1, (h.1 rfl).2 (Match.new ['a','b']) rfl, h.2.1 7 rfl⟩

/-- C10: when scratch allocation fails at scan time the failure is silently
absorbed: `find` returns `None`, `is_match` returns `false`, and every
`Matches::next` step yields nothing, with no error reaching the caller. -/
theorem alloc_failure_absorbed (e : Engine) (text : List Char)
    (h : e.allocOk = false) :
    find e text = none ∧ isMatch e text = false ∧
      ∀ s : Option Match, matchesNext e text s = (none, none) := by
  have hfa : ∀ start, findAt e text start = none := by
    intro start
    simp [findAt, h]
  refine ⟨hfa 0, ?_, ?_⟩
  · simp only [isMatch, hfa 0, Option.isSome_none]
  · intro s
    cases s with
    | none => rfl
    | some prev => simp [matchesNext, h]

/-- Witness for C10 at a concrete engine with failing allocation. -/
theorem alloc_failure_absorbed_witness :
    find noAllocEngine ['a'] = none ∧ isMatch noAllocEngine ['a'] = false ∧
      matchesNext noAllocEngine ['a'] (initState ['a']) = (none, none) := by
  have h := alloc_failure_absorbed noAllocEngine ['a'] rfl
  exact ⟨h.1, h.2.1, h.2.2 (initState ['a'])⟩

end HsRegex
